import Mathlib

set_option linter.unusedVariables false

/-!
Shallow embedding of src/huffman.py.

Symbols are modelled as natural numbers below 256 (the Python code converts
between length-1 bytes objects and small integers with int.from_bytes and
int.to_bytes, and the two views are in bijection), bitstrings from the
bitstring module as List Bool, and the float frequencies as rational numbers.
Python exceptions are modelled as Except values.
-/

namespace Huffman

/-- Failure modes of the Python code: the ValueError raised by
occurrences2frequencies, the IndexError raised by bits[-1] on an empty
bitstring inside removePadding, and the IndexError raised by codeWord[0]
inside traverseTree, each named after the condition it signals in the
specification.  outOfFuel marks the one place where the Python decode loop
would run forever (a singleton tree together with a nonempty payload), so
that the embedded loop is total. -/
inductive HuffError where
  | degenerateInput
  | malformedPadding
  | truncatedCode
  | outOfFuel
deriving DecidableEq

/-- class PrefixTree: the Python object stores a frequency, a symbol (the
empty string on internal nodes, a byte on leaves) and two children (None on
leaves), so a value is exactly a leaf or a node with two children. -/
inductive PrefixTree where
  | leaf (frequency : ℚ) (symbol : Nat)
  | node (frequency : ℚ) (lChild rChild : PrefixTree)
deriving DecidableEq

namespace PrefixTree

/-- PrefixTree.key returns self.frequency. -/
def key : PrefixTree → ℚ
  | .leaf f _ => f
  | .node f _ _ => f

/-- PrefixTree.isSingleton tests symbol == "", which is true exactly on
leaves (internal nodes are created by fromTwoTrees with symbol ""). -/
def isSingleton : PrefixTree → Bool
  | .leaf _ _ => true
  | .node _ _ _ => false

/-- PrefixTree.find_smallest: on a leaf, return the smaller of the symbol and
the running bound; on an internal node, the minimum over both children. -/
def find_smallest : PrefixTree → Nat → Nat
  | .leaf _ s, smallest => if s < smallest then s else smallest
  | .node _ l r, smallest => min (l.find_smallest smallest) (r.find_smallest smallest)

/-- PrefixTree.__lt__: compare keys, breaking ties by find_smallest with the
sentinel 1000. -/
def lt (t1 t2 : PrefixTree) : Bool :=
  if t1.key = t2.key then decide (t1.find_smallest 1000 < t2.find_smallest 1000)
  else decide (t1.key < t2.key)

/-- PrefixTree.fromTwoTrees: merge two trees under a fresh internal node whose
frequency is the sum of the keys, first argument on the left. -/
def fromTwoTrees (t1 t2 : PrefixTree) : PrefixTree :=
  .node (t1.key + t2.key) t1 t2

end PrefixTree

/-- MinHeapWrapper.popMin via heapq.heappop: with the strict total order that
__lt__ induces on every heap arising in this program (weights are totally
ordered and distinct subtrees hold distinct smallest symbols), the pop
returns the minimum element.  popMin models that observable behaviour: it
returns the least element under PrefixTree.lt together with the remaining
elements. -/
def popMin : List PrefixTree → Option (PrefixTree × List PrefixTree)
  | [] => none
  | t :: ts =>
    match popMin ts with
    | none => some (t, [])
    | some (m, rest) => if PrefixTree.lt m t then some (m, t :: rest) else some (t, ts)

/-- The while loop of HuffmanCode.__init__ followed by the final popMin: pop
the two minima, merge with fromTwoTrees, push the merge back, until one tree
remains.  The fuel argument bounds the number of iterations; every iteration
shrinks the heap by one element, so fuel equal to the initial heap size is
never exhausted (buildLoopAux_fuel below). -/
def buildLoopAux : Nat → List PrefixTree → Option PrefixTree
  | fuel, heap =>
    match popMin heap with
    | none => none
    | some (t1, r1) =>
      match popMin r1 with
      | none => some t1
      | some (t2, r2) =>
        match fuel with
        | 0 => none
        | fuel' + 1 => buildLoopAux fuel' (PrefixTree.fromTwoTrees t1 t2 :: r2)

/-- The tree construction of HuffmanCode.__init__ on an already seeded heap. -/
def buildLoop (heap : List PrefixTree) : Option PrefixTree :=
  buildLoopAux heap.length heap

/-- HuffmanCode.search_tree: record the accumulated bit path at each leaf,
descending left with an appended False and right with an appended True. -/
def search_tree : PrefixTree → List Bool → List (List Bool) → List (List Bool)
  | .leaf _ s, bitseq, symbols => symbols.set s bitseq
  | .node _ t1 t2, bitseq, symbols =>
    search_tree t2 (bitseq ++ [true]) (search_tree t1 (bitseq ++ [false]) symbols)

/-- The state built by HuffmanCode.__init__: the PrefixTree and the 256-entry
codeword array. -/
structure HuffmanCode where
  tree : PrefixTree
  code_array : List (List Bool)
deriving DecidableEq

/-- HuffmanCode.__init__: seed one leaf per table entry (in table order),
run the merge loop, then derive the codeword array by search_tree starting
from the empty path and a 256-item array of empty bitstrings.  The frequency
table is modelled as an association list in dict iteration order; the Python
code raises IndexError on an empty heap, modelled as none. -/
def huffmanInit (frequencyTable : List (Nat × ℚ)) : Option HuffmanCode :=
  match buildLoop (frequencyTable.map (fun p => PrefixTree.leaf p.2 p.1)) with
  | none => none
  | some t => some { tree := t, code_array := search_tree t [] (List.replicate 256 []) }

/-- HuffmanCode.codewordFor: index the codeword array by the symbol value. -/
def codewordFor (c : HuffmanCode) (symbol : Nat) : List Bool :=
  c.code_array.getD symbol []

/-- HuffmanCode.paddingSuitableFor: n = 8 - (len - (len // 8) * 8); if n > 0,
a single True followed by n - 1 False bits (the Python loop builds exactly
that list). -/
def paddingSuitableFor (bits : List Bool) : List Bool :=
  let n := 8 - (bits.length - (bits.length / 8) * 8)
  if 0 < n then true :: List.replicate (n - 1) false else []

/-- HuffmanCode.encode: concatenate the codewords of the input symbols in
order (the Python loop appends to an initially empty bitstring), then append
the padding suitable for that concatenation. -/
def encode (c : HuffmanCode) (plaintextBytes : List Nat) : List Bool :=
  let ret := plaintextBytes.foldl (fun ret byte => ret ++ codewordFor c byte) []
  ret ++ paddingSuitableFor ret

/-- HuffmanCode.removePadding: repeatedly drop the last bit while it is False,
then drop one more bit; dropping from an empty bitstring raises IndexError
(the input held no True bit), modelled as malformedPadding.  The loop is
expressed on the reversed list: drop the leading False bits, then require a
head. -/
def removePadding (bits : List Bool) : Except HuffError (List Bool) :=
  match bits.reverse.dropWhile (fun b => !b) with
  | [] => .error .malformedPadding
  | _ :: rest => .ok rest.reverse

/-- HuffmanCode.traverseTree: walk from the given tree consuming one bit per
step, False to the left child and True to the right, until a singleton is
reached; indexing codeWord[0] on an empty bitstring raises IndexError,
modelled as none (the truncation signal). -/
def traverseTree : PrefixTree → List Bool → Option (Nat × List Bool)
  | .leaf _ s, cw => some (s, cw)
  | .node _ _ _, [] => none
  | .node _ l _, false :: cw => traverseTree l cw
  | .node _ _ r, true :: cw => traverseTree r cw

/-- The while loop of HuffmanCode.decode: while bits remain, extract one
symbol with traverseTree and append it.  The fuel bounds the number of
iterations; on every tree arising from a valid table each iteration consumes
at least one bit, so fuel equal to the bit count is never exhausted.  With a
singleton tree and a nonempty payload the Python loop never terminates; that
is the only way the outOfFuel value can surface. -/
def decodeLoop (t : PrefixTree) (fuel : Nat) (bits : List Bool) :
    Except HuffError (List Nat) :=
  match bits with
  | [] => .ok []
  | b :: bs =>
    match fuel with
    | 0 => .error .outOfFuel
    | fuel' + 1 =>
      match traverseTree t (b :: bs) with
      | none => .error .truncatedCode
      | some (symbol, rest) =>
        match decodeLoop t fuel' rest with
        | .ok syms => .ok (symbol :: syms)
        | .error e => .error e

/-- HuffmanCode.decode: remove the padding, then run the decode loop on the
remaining bits. -/
def decode (c : HuffmanCode) (encodedAndPaddedBits : List Bool) :
    Except HuffError (List Nat) :=
  match removePadding encodedAndPaddedBits with
  | .error e => .error e
  | .ok encodedBits => decodeLoop c.tree encodedBits.length encodedBits

/-- HuffmanCode.occurrences2frequencies: sum all counts; raise ValueError
(degenerateInput) when the total is zero, otherwise divide every count by the
total, keeping the table order. -/
def occurrences2frequencies (occurrences : List (Nat × Nat)) :
    Except HuffError (List (Nat × ℚ)) :=
  let total : Nat := occurrences.foldl (fun t o => t + o.2) 0
  if total = 0 then .error .degenerateInput
  else .ok (occurrences.map (fun o => (o.1, (o.2 : ℚ) / (total : ℚ))))

/-- The symbols at the leaves of a tree, in left-to-right order. -/
def leafSymbols : PrefixTree → List Nat
  | .leaf _ s => [s]
  | .node _ l r => leafSymbols l ++ leafSymbols r

/-- The (symbol, root-to-leaf path) pairs of a tree, each path extending the
accumulator acc, in the visiting order of search_tree. -/
def paths : PrefixTree → List Bool → List (Nat × List Bool)
  | .leaf _ s, acc => [(s, acc)]
  | .node _ l r, acc => paths l (acc ++ [false]) ++ paths r (acc ++ [true])

/-- The numerically smallest symbol among the leaves of a tree, stated
structurally; minSymbol_mem and minSymbol_le below identify it with the
minimum over leafSymbols. -/
def minSymbol : PrefixTree → Nat
  | .leaf _ s => s
  | .node _ l r => min (minSymbol l) (minSymbol r)

/-- A concrete 256-entry frequency table: all weight on symbol 0, in key
order 0, 1, ..., 255. -/
def exampleTable : List (Nat × ℚ) :=
  (0, (1 : ℚ)) :: (List.range 255).map (fun i => (i + 1, (0 : ℚ)))

/-! Basic facts about the heap model. -/

theorem popMin_none : ∀ {l : List PrefixTree}, popMin l = none ↔ l = [] := by
  intro l
  cases l with
  | nil => simp [popMin]
  | cons x ts =>
    simp only [popMin]
    cases hp : popMin ts with
    | none => simp
    | some p =>
      obtain ⟨m, rest⟩ := p
      by_cases hc : PrefixTree.lt m x <;> simp [hc]

theorem popMin_length : ∀ {l t r}, popMin l = some (t, r) → r.length + 1 = l.length := by
  intro l
  induction l with
  | nil => intro t r h; simp [popMin] at h
  | cons x ts ih =>
    intro t r h
    simp only [popMin] at h
    cases hp : popMin ts with
    | none =>
      rw [hp] at h
      obtain ⟨rfl, rfl⟩ := Option.some.inj h |> Prod.mk.inj
      have : ts = [] := popMin_none.mp hp
      simp [this]
    | some p =>
      obtain ⟨m, rest⟩ := p
      rw [hp] at h
      by_cases hc : PrefixTree.lt m x
      · simp only [hc, if_true] at h
        obtain ⟨rfl, rfl⟩ := Option.some.inj h |> Prod.mk.inj
        have := ih hp
        simp only [List.length_cons]
        omega
      · simp only [hc, if_false] at h
        obtain ⟨rfl, rfl⟩ := Option.some.inj h |> Prod.mk.inj
        rfl

theorem popMin_perm : ∀ {l t r}, popMin l = some (t, r) → l.Perm (t :: r) := by
  intro l
  induction l with
  | nil => intro t r h; simp [popMin] at h
  | cons x ts ih =>
    intro t r h
    simp only [popMin] at h
    cases hp : popMin ts with
    | none =>
      rw [hp] at h
      obtain ⟨rfl, rfl⟩ := Option.some.inj h |> Prod.mk.inj
      have : ts = [] := popMin_none.mp hp
      simp [this]
    | some p =>
      obtain ⟨m, rest⟩ := p
      rw [hp] at h
      by_cases hc : PrefixTree.lt m x
      · simp only [hc, if_true] at h
        obtain ⟨rfl, rfl⟩ := Option.some.inj h |> Prod.mk.inj
        exact ((ih hp).cons x).trans (List.Perm.swap m x rest)
      · simp only [hc, if_false] at h
        obtain ⟨rfl, rfl⟩ := Option.some.inj h |> Prod.mk.inj
        exact List.Perm.refl _

/-! The order induced by PrefixTree.__lt__ is the lexicographic comparison of
the pair (key, find_smallest 1000); it is transitive and asymmetric, and any
two trees that agree on both components compare equal against everything. -/

theorem lt_iff {a b : PrefixTree} :
    PrefixTree.lt a b = true ↔
      (a.key < b.key ∨ (a.key = b.key ∧ a.find_smallest 1000 < b.find_smallest 1000)) := by
  unfold PrefixTree.lt
  by_cases h : a.key = b.key
  · rw [if_pos h]
    simp [h]
  · rw [if_neg h]
    simp [h]

theorem lt_asymm {a b : PrefixTree} (h : PrefixTree.lt a b = true) :
    PrefixTree.lt b a = false := by
  rw [Bool.eq_false_iff]
  intro hba
  rcases lt_iff.mp h with h1 | ⟨h1, h2⟩ <;> rcases lt_iff.mp hba with h3 | ⟨h3, h4⟩
  · exact absurd (h1.trans h3) (lt_irrefl _)
  · exact absurd h1 (by rw [h3]; exact lt_irrefl _)
  · exact absurd h3 (by rw [h1]; exact lt_irrefl _)
  · omega

theorem lt_trans {a b c : PrefixTree} (hab : PrefixTree.lt a b = true)
    (hbc : PrefixTree.lt b c = true) : PrefixTree.lt a c = true := by
  rcases lt_iff.mp hab with h1 | ⟨h1, h2⟩ <;> rcases lt_iff.mp hbc with h3 | ⟨h3, h4⟩
  · exact lt_iff.mpr (Or.inl (h1.trans h3))
  · exact lt_iff.mpr (Or.inl (h3 ▸ h1))
  · exact lt_iff.mpr (Or.inl (h1 ▸ h3))
  · exact lt_iff.mpr (Or.inr ⟨h1.trans h3, h2.trans h4⟩)

theorem lt_self_false (a : PrefixTree) : PrefixTree.lt a a = false := by
  unfold PrefixTree.lt
  simp

theorem lt_congr_left {a b x : PrefixTree} (hk : a.key = b.key)
    (hf : a.find_smallest 1000 = b.find_smallest 1000) :
    PrefixTree.lt x a = PrefixTree.lt x b := by
  unfold PrefixTree.lt
  rw [hk, hf]

/-- Comparability of all pairs of a heap under __lt__: any two elements are
strictly ordered one way or the other, or agree on both comparison keys. -/
def cmpOK (l : List PrefixTree) : Prop :=
  ∀ a ∈ l, ∀ b ∈ l,
    PrefixTree.lt a b = true ∨ PrefixTree.lt b a = true ∨
      (a.key = b.key ∧ a.find_smallest 1000 = b.find_smallest 1000)

theorem cmpOK_tail {x : PrefixTree} {ts : List PrefixTree} (h : cmpOK (x :: ts)) :
    cmpOK ts := by
  intro a ha b hb
  exact h a (List.mem_cons_of_mem x ha) b (List.mem_cons_of_mem x hb)

/-- On a comparable heap, popMin returns an element that no remaining element
compares below: the first-popped tree is the minimum. -/
theorem popMin_min : ∀ {l t r}, cmpOK l → popMin l = some (t, r) →
    ∀ x ∈ r, PrefixTree.lt x t = false := by
  intro l
  induction l with
  | nil => intro t r _ h; simp [popMin] at h
  | cons x ts ih =>
    intro t r hcmp h
    simp only [popMin] at h
    cases hp : popMin ts with
    | none =>
      rw [hp] at h
      obtain ⟨rfl, rfl⟩ := Option.some.inj h |> Prod.mk.inj
      intro y hy
      simp at hy
    | some p =>
      obtain ⟨m, rest⟩ := p
      rw [hp] at h
      have hmts : m ∈ ts := (popMin_perm hp).mem_iff.mpr (List.mem_cons_self m rest)
      by_cases hc : PrefixTree.lt m x
      · simp only [hc, if_true] at h
        obtain ⟨rfl, rfl⟩ := Option.some.inj h |> Prod.mk.inj
        intro y hy
        rcases List.mem_cons.mp hy with rfl | hy
        · exact lt_asymm hc
        · exact ih (cmpOK_tail hcmp) hp y hy
      · simp only [hc, if_false] at h
        obtain ⟨rfl, rfl⟩ := Option.some.inj h |> Prod.mk.inj
        intro y hy
        have hym : PrefixTree.lt y m = false := by
          rcases List.mem_cons.mp ((popMin_perm hp).mem_iff.mp hy) with heq | hy'
          · rw [heq]
            exact lt_self_false m
          · exact ih (cmpOK_tail hcmp) hp y hy'
        rw [Bool.eq_false_iff]
        intro hyt
        rcases hcmp m (List.mem_cons_of_mem x hmts) x (List.mem_cons_self x ts)
          with hmt | hxm | ⟨hk, hf⟩
        · exact hc hmt
        · have := lt_trans hyt hxm
          rw [this] at hym
          cases hym
        · rw [lt_congr_left hk.symm hf.symm] at hyt
          rw [hyt] at hym
          cases hym

/-! find_smallest computes the minimum leaf symbol, capped by the running
bound. -/

theorem find_smallest_eq_min (t : PrefixTree) :
    ∀ b, t.find_smallest b = min (minSymbol t) b := by
  induction t with
  | leaf f s =>
    intro b
    simp only [PrefixTree.find_smallest, minSymbol, Nat.min_def]
    split_ifs <;> omega
  | node f l r ihl ihr =>
    intro b
    simp only [PrefixTree.find_smallest, minSymbol, ihl, ihr, Nat.min_def]
    split_ifs <;> omega

theorem minSymbol_mem (t : PrefixTree) : minSymbol t ∈ leafSymbols t := by
  induction t with
  | leaf f s => simp [minSymbol, leafSymbols]
  | node f l r ihl ihr =>
    simp only [minSymbol, leafSymbols, List.mem_append, Nat.min_def]
    split_ifs with h
    · exact Or.inl ihl
    · exact Or.inr ihr

theorem minSymbol_le (t : PrefixTree) : ∀ s ∈ leafSymbols t, minSymbol t ≤ s := by
  induction t with
  | leaf f s0 =>
    intro s hs
    simp only [leafSymbols, List.mem_singleton] at hs
    simp [minSymbol, hs]
  | node f l r ihl ihr =>
    intro s hs
    simp only [leafSymbols, List.mem_append] at hs
    simp only [minSymbol]
    rcases hs with hs | hs
    · exact le_trans (Nat.min_le_left _ _) (ihl s hs)
    · exact le_trans (Nat.min_le_right _ _) (ihr s hs)

/-! The merge loop: never exhausts its fuel, and preserves the multiset of
leaf symbols. -/

theorem fromTwoTrees_leafSymbols (t1 t2 : PrefixTree) :
    leafSymbols (PrefixTree.fromTwoTrees t1 t2) = leafSymbols t1 ++ leafSymbols t2 := rfl

theorem buildLoopAux_isSome :
    ∀ (fuel : Nat) (heap : List PrefixTree), heap ≠ [] → heap.length ≤ fuel + 1 →
      ∃ t, buildLoopAux fuel heap = some t := by
  intro fuel
  induction fuel with
  | zero =>
    intro heap hne hlen
    cases hp1 : popMin heap with
    | none => exact absurd (popMin_none.mp hp1) hne
    | some p1 =>
      obtain ⟨t1, r1⟩ := p1
      cases hp2 : popMin r1 with
      | none =>
        refine ⟨t1, ?_⟩
        rw [buildLoopAux, hp1]
        dsimp only
        rw [hp2]
      | some p2 =>
        obtain ⟨t2, r2⟩ := p2
        have h1 := popMin_length hp1
        have h2 := popMin_length hp2
        omega
  | succ fuel ih =>
    intro heap hne hlen
    cases hp1 : popMin heap with
    | none => exact absurd (popMin_none.mp hp1) hne
    | some p1 =>
      obtain ⟨t1, r1⟩ := p1
      cases hp2 : popMin r1 with
      | none =>
        refine ⟨t1, ?_⟩
        rw [buildLoopAux, hp1]
        dsimp only
        rw [hp2]
      | some p2 =>
        obtain ⟨t2, r2⟩ := p2
        have h1 := popMin_length hp1
        have h2 := popMin_length hp2
        obtain ⟨t, ht⟩ := ih (PrefixTree.fromTwoTrees t1 t2 :: r2)
          (by simp) (by simp only [List.length_cons]; omega)
        refine ⟨t, ?_⟩
        rw [buildLoopAux, hp1]
        dsimp only
        rw [hp2]
        exact ht

theorem buildLoopAux_perm :
    ∀ (fuel : Nat) (heap : List PrefixTree) (t : PrefixTree), heap.length ≤ fuel + 1 →
      buildLoopAux fuel heap = some t →
      (leafSymbols t).Perm (heap.flatMap leafSymbols) := by
  intro fuel
  induction fuel with
  | zero =>
    intro heap t hlen h
    cases hp1 : popMin heap with
    | none =>
      rw [buildLoopAux, hp1] at h
      cases h
    | some p1 =>
      obtain ⟨t1, r1⟩ := p1
      cases hp2 : popMin r1 with
      | none =>
        rw [buildLoopAux, hp1] at h
        dsimp only at h
        rw [hp2] at h
        obtain rfl := Option.some.inj h
        have hr1 : r1 = [] := popMin_none.mp hp2
        have := (popMin_perm hp1).flatMap_right leafSymbols
        rw [hr1] at this
        simpa using this.symm
      | some p2 =>
        obtain ⟨t2, r2⟩ := p2
        have h1 := popMin_length hp1
        have h2 := popMin_length hp2
        omega
  | succ fuel ih =>
    intro heap t hlen h
    cases hp1 : popMin heap with
    | none =>
      rw [buildLoopAux, hp1] at h
      cases h
    | some p1 =>
      obtain ⟨t1, r1⟩ := p1
      cases hp2 : popMin r1 with
      | none =>
        rw [buildLoopAux, hp1] at h
        dsimp only at h
        rw [hp2] at h
        obtain rfl := Option.some.inj h
        have hr1 : r1 = [] := popMin_none.mp hp2
        have := (popMin_perm hp1).flatMap_right leafSymbols
        rw [hr1] at this
        simpa using this.symm
      | some p2 =>
        obtain ⟨t2, r2⟩ := p2
        rw [buildLoopAux, hp1] at h
        dsimp only at h
        rw [hp2] at h
        dsimp only at h
        have h1 := popMin_length hp1
        have h2 := popMin_length hp2
        have hrec := ih (PrefixTree.fromTwoTrees t1 t2 :: r2) t
          (by simp only [List.length_cons]; omega) h
        have e1 : (heap.flatMap leafSymbols).Perm ((t1 :: r1).flatMap leafSymbols) :=
          (popMin_perm hp1).flatMap_right leafSymbols
        have e2 : (r1.flatMap leafSymbols).Perm ((t2 :: r2).flatMap leafSymbols) :=
          (popMin_perm hp2).flatMap_right leafSymbols
        refine hrec.trans (List.Perm.symm ?_)
        refine e1.trans ?_
        simp only [List.flatMap_cons, fromTwoTrees_leafSymbols, List.append_assoc]
        exact e2.append_left (leafSymbols t1)

theorem buildLoop_isSome {heap : List PrefixTree} (hne : heap ≠ []) :
    ∃ t, buildLoop heap = some t :=
  buildLoopAux_isSome heap.length heap hne (by omega)

theorem buildLoop_perm {heap : List PrefixTree} {t : PrefixTree}
    (h : buildLoop heap = some t) :
    (leafSymbols t).Perm (heap.flatMap leafSymbols) :=
  buildLoopAux_perm heap.length heap t (by omega) h

/-! The codeword array: search_tree is a fold of array updates over the
(symbol, path) pairs of the tree, and with distinct bounded symbols the entry
of a symbol is its unique path. -/

theorem search_tree_eq_foldl :
    ∀ (t : PrefixTree) (acc : List Bool) (symbols : List (List Bool)),
      search_tree t acc symbols =
        (paths t acc).foldl (fun arr e => arr.set e.1 e.2) symbols := by
  intro t
  induction t with
  | leaf f s => intro acc symbols; simp [search_tree, paths]
  | node f l r ihl ihr =>
    intro acc symbols
    simp [search_tree, paths, List.foldl_append, ihl, ihr]

theorem paths_map_fst :
    ∀ (t : PrefixTree) (acc : List Bool), (paths t acc).map Prod.fst = leafSymbols t := by
  intro t
  induction t with
  | leaf f s => intro acc; simp [paths, leafSymbols]
  | node f l r ihl ihr => intro acc; simp [paths, leafSymbols, ihl, ihr]

theorem foldl_set_length :
    ∀ (entries : List (Nat × List Bool)) (init : List (List Bool)),
      ((entries.foldl (fun arr e => arr.set e.1 e.2) init)).length = init.length := by
  intro entries
  induction entries with
  | nil => intro init; rfl
  | cons e rest ih =>
    intro init
    simp only [List.foldl_cons, ih, List.length_set]

theorem foldl_set_not_mem :
    ∀ (entries : List (Nat × List Bool)) (init : List (List Bool)) (a : Nat),
      a ∉ entries.map Prod.fst →
      (entries.foldl (fun arr e => arr.set e.1 e.2) init).getD a [] = init.getD a [] := by
  intro entries
  induction entries with
  | nil => intro init a _; rfl
  | cons e rest ih =>
    intro init a ha
    simp only [List.map_cons, List.mem_cons, not_or] at ha
    simp only [List.foldl_cons]
    rw [ih _ a ha.2]
    simp [List.getD_eq_getElem?_getD, List.getElem?_set_ne (Ne.symm ha.1)]

theorem foldl_set_mem :
    ∀ (entries : List (Nat × List Bool)) (init : List (List Bool)) (a : Nat) (p : List Bool),
      (entries.map Prod.fst).Nodup → (a, p) ∈ entries → a < init.length →
      (entries.foldl (fun arr e => arr.set e.1 e.2) init).getD a [] = p := by
  intro entries
  induction entries with
  | nil => intro init a p _ h _; simp at h
  | cons e rest ih =>
    intro init a p hnd hmem hlt
    simp only [List.map_cons, List.nodup_cons] at hnd
    simp only [List.foldl_cons]
    rcases List.mem_cons.mp hmem with heq | hmem'
    · obtain ⟨rfl, rfl⟩ : e.1 = a ∧ e.2 = p := by
        rw [← heq]
        exact ⟨rfl, rfl⟩
      rw [foldl_set_not_mem rest _ e.1 hnd.1]
      simp [List.getD_eq_getElem?_getD, List.getElem?_set_self', hlt]
    · exact ih _ a p hnd.2 hmem' (by simpa using hlt)

/-! Paths and tree traversal: walking the tree along a recorded path reaches
the recorded symbol, and conversely every successful traversal consumes a
recorded path. -/

theorem paths_spec :
    ∀ (t : PrefixTree) (acc : List Bool) (a : Nat) (p : List Bool),
      (a, p) ∈ paths t acc →
      ∃ suf, p = acc ++ suf ∧ ∀ rest, traverseTree t (suf ++ rest) = some (a, rest) := by
  intro t
  induction t with
  | leaf f s =>
    intro acc a p h
    simp only [paths, List.mem_singleton, Prod.mk.injEq] at h
    obtain ⟨rfl, rfl⟩ := h
    exact ⟨[], by simp, fun rest => by simp [traverseTree]⟩
  | node f l r ihl ihr =>
    intro acc a p h
    simp only [paths, List.mem_append] at h
    rcases h with h | h
    · obtain ⟨suf, hsuf, htr⟩ := ihl _ _ _ h
      refine ⟨false :: suf, ?_, ?_⟩
      · rw [hsuf]; simp
      · intro rest
        simpa [traverseTree] using htr rest
    · obtain ⟨suf, hsuf, htr⟩ := ihr _ _ _ h
      refine ⟨true :: suf, ?_, ?_⟩
      · rw [hsuf]; simp
      · intro rest
        simpa [traverseTree] using htr rest

theorem traverse_mem_paths :
    ∀ (t : PrefixTree) (acc bits : List Bool) (a : Nat) (rest : List Bool),
      traverseTree t bits = some (a, rest) →
      ∃ suf, bits = suf ++ rest ∧ (a, acc ++ suf) ∈ paths t acc := by
  intro t
  induction t with
  | leaf f s =>
    intro acc bits a rest h
    simp only [traverseTree, Option.some.injEq, Prod.mk.injEq] at h
    obtain ⟨rfl, rfl⟩ := h
    exact ⟨[], by simp, by simp [paths]⟩
  | node f l r ihl ihr =>
    intro acc bits a rest h
    match bits with
    | [] => simp [traverseTree] at h
    | false :: bs =>
      simp only [traverseTree] at h
      obtain ⟨suf, h1, h2⟩ := ihl (acc ++ [false]) bs a rest h
      refine ⟨false :: suf, by simp [h1], ?_⟩
      simp only [paths, List.mem_append]
      left
      simpa [List.append_assoc] using h2
    | true :: bs =>
      simp only [traverseTree] at h
      obtain ⟨suf, h1, h2⟩ := ihr (acc ++ [true]) bs a rest h
      refine ⟨true :: suf, by simp [h1], ?_⟩
      simp only [paths, List.mem_append]
      right
      simpa [List.append_assoc] using h2

theorem paths_ne_nil_of_node {f : ℚ} {l r : PrefixTree} {a : Nat} {p : List Bool}
    (h : (a, p) ∈ paths (PrefixTree.node f l r) []) : p ≠ [] := by
  obtain ⟨suf, hsuf, htr⟩ := paths_spec _ [] a p h
  intro hp
  rw [hp] at hsuf
  have hsuf' : suf = [] := by simpa using hsuf.symm
  have := htr []
  rw [hsuf'] at this
  simp [traverseTree] at this

/-! The decode loop. -/

theorem decodeLoop_nil (t : PrefixTree) (fuel : Nat) : decodeLoop t fuel [] = .ok [] := by
  rw [decodeLoop]

/-- Decoding a concatenation of nonempty recorded codewords returns the
symbol list, given enough fuel. -/
theorem decodeLoop_flatMap (t : PrefixTree) (cw : Nat → List Bool) :
    ∀ (s : List Nat) (fuel : Nat),
      (∀ a ∈ s, (a, cw a) ∈ paths t [] ∧ cw a ≠ []) →
      (s.flatMap cw).length ≤ fuel →
      decodeLoop t fuel (s.flatMap cw) = .ok s := by
  intro s
  induction s with
  | nil => intro fuel _ _; simp [decodeLoop_nil]
  | cons a s' ih =>
    intro fuel hcw hfuel
    have ha := hcw a (List.mem_cons_self a s')
    obtain ⟨hmem, hne⟩ := ha
    obtain ⟨suf, hsuf, htr⟩ := paths_spec t [] a (cw a) hmem
    have hsuf' : suf = cw a := by simpa using hsuf.symm
    subst hsuf'
    cases hcwa : cw a with
    | nil => exact absurd hcwa hne
    | cons b cb =>
      have hflat : (a :: s').flatMap cw = b :: (cb ++ s'.flatMap cw) := by
        simp [List.flatMap_cons, hcwa]
      rw [hflat]
      have hlen : (b :: (cb ++ s'.flatMap cw)).length ≤ fuel := by
        rw [← hflat]
        exact hfuel
      cases fuel with
      | zero => simp at hlen
      | succ fuel' =>
        rw [decodeLoop]
        have htr' : traverseTree t (b :: (cb ++ s'.flatMap cw)) =
            some (a, s'.flatMap cw) := by
          have := htr (s'.flatMap cw)
          rw [hcwa] at this
          simpa using this
        rw [htr']
        dsimp only
        have hrec : decodeLoop t fuel' (s'.flatMap cw) = .ok s' := by
          apply ih fuel' (fun x hx => hcw x (List.mem_cons_of_mem a hx))
          simp only [List.length_cons, List.length_append] at hlen
          omega
        rw [hrec]

/-- A successful decode loop inverts to a concatenation of codewords of the
tree: every emitted symbol is a leaf symbol and the input splits into their
recorded paths. -/
theorem decodeLoop_ok (c : HuffmanCode)
    (hca : c.code_array = search_tree c.tree [] (List.replicate 256 []))
    (hnd : (leafSymbols c.tree).Nodup)
    (hb : ∀ x ∈ leafSymbols c.tree, x < 256) :
    ∀ (fuel : Nat) (bits : List Bool) (s : List Nat),
      decodeLoop c.tree fuel bits = .ok s →
      bits = s.flatMap (codewordFor c) ∧ ∀ a ∈ s, a ∈ leafSymbols c.tree := by
  have hcweq : ∀ (a : Nat) (p : List Bool), (a, p) ∈ paths c.tree [] →
      codewordFor c a = p := by
    intro a p hp
    have hafst : a ∈ leafSymbols c.tree := by
      rw [← paths_map_fst c.tree []]
      exact List.mem_map.mpr ⟨(a, p), hp, rfl⟩
    unfold codewordFor
    rw [hca, search_tree_eq_foldl]
    refine foldl_set_mem _ _ a p ?_ hp ?_
    · rw [paths_map_fst]
      exact hnd
    · simp only [List.length_replicate]
      exact hb a hafst
  intro fuel
  induction fuel with
  | zero =>
    intro bits s h
    cases bits with
    | nil =>
      rw [decodeLoop_nil] at h
      obtain rfl := Except.ok.inj h
      simp
    | cons b bs => rw [decodeLoop] at h; cases h
  | succ fuel ih =>
    intro bits s h
    cases bits with
    | nil =>
      rw [decodeLoop_nil] at h
      obtain rfl := Except.ok.inj h
      simp
    | cons b bs =>
      rw [decodeLoop] at h
      cases htr : traverseTree c.tree (b :: bs) with
      | none => rw [htr] at h; cases h
      | some p =>
        obtain ⟨a, rest⟩ := p
        rw [htr] at h
        dsimp only at h
        cases hrec : decodeLoop c.tree fuel rest with
        | error e => rw [hrec] at h; cases h
        | ok s' =>
          rw [hrec] at h
          obtain rfl := Except.ok.inj h
          obtain ⟨suf, hsplit, hmem⟩ := traverse_mem_paths c.tree [] (b :: bs) a rest htr
          have hsuf : (a, suf) ∈ paths c.tree [] := by simpa using hmem
          have hcwa : codewordFor c a = suf := hcweq a suf hsuf
          obtain ⟨hbits, hall⟩ := ih rest s' hrec
          constructor
          · rw [List.flatMap_cons, hcwa, ← hbits]
            exact hsplit
          · intro x hx
            rcases List.mem_cons.mp hx with rfl | hx'
            · rw [← paths_map_fst c.tree []]
              exact List.mem_map.mpr ⟨(x, suf), hsuf, rfl⟩
            · exact hall x hx'

/-- The decode loop yields only ok, truncatedCode or outOfFuel. -/
theorem decodeLoop_error (t : PrefixTree) :
    ∀ (fuel : Nat) (bits : List Bool) (e : HuffError),
      decodeLoop t fuel bits = .error e →
      e = .truncatedCode ∨ e = .outOfFuel := by
  intro fuel
  induction fuel with
  | zero =>
    intro bits e h
    cases bits with
    | nil => rw [decodeLoop_nil] at h; cases h
    | cons b bs =>
      rw [decodeLoop] at h
      obtain rfl := (Except.error.inj h).symm
      right; rfl
  | succ fuel ih =>
    intro bits e h
    cases bits with
    | nil => rw [decodeLoop_nil] at h; cases h
    | cons b bs =>
      rw [decodeLoop] at h
      cases htr : traverseTree t (b :: bs) with
      | none =>
        rw [htr] at h
        obtain rfl := (Except.error.inj h).symm
        left; rfl
      | some p =>
        obtain ⟨a, rest⟩ := p
        rw [htr] at h
        dsimp only at h
        cases hrec : decodeLoop t fuel rest with
        | error e0 =>
          rw [hrec] at h
          have he := Except.error.inj h
          exact he ▸ ih rest e0 hrec
        | ok s' => rw [hrec] at h; cases h

/-- With an internal root and fuel at least the bit count, the decode loop
never exhausts its fuel: every traversal step consumes at least one bit. -/
theorem decodeLoop_no_fuel {f : ℚ} {l r : PrefixTree} :
    ∀ (fuel : Nat) (bits : List Bool), bits.length ≤ fuel →
      decodeLoop (PrefixTree.node f l r) fuel bits ≠ .error .outOfFuel := by
  intro fuel
  induction fuel with
  | zero =>
    intro bits hlen
    cases bits with
    | nil => rw [decodeLoop_nil]; intro h; cases h
    | cons b bs => simp at hlen
  | succ fuel ih =>
    intro bits hlen
    cases bits with
    | nil => rw [decodeLoop_nil]; intro h; cases h
    | cons b bs =>
      rw [decodeLoop]
      cases htr : traverseTree (PrefixTree.node f l r) (b :: bs) with
      | none => intro h; cases h
      | some p =>
        obtain ⟨a, rest⟩ := p
        dsimp only
        obtain ⟨suf, hsplit, hmem⟩ :=
          traverse_mem_paths (PrefixTree.node f l r) [] (b :: bs) a rest htr
        have hsufne : suf ≠ [] := paths_ne_nil_of_node (by simpa using hmem)
        have hrest : rest.length ≤ fuel := by
          have : (b :: bs).length = suf.length + rest.length := by
            rw [hsplit, List.length_append]
          cases suf with
          | nil => exact absurd rfl hsufne
          | cons u us =>
            simp only [List.length_cons] at this hlen
            omega
        cases hrec : decodeLoop (PrefixTree.node f l r) fuel rest with
        | error e' =>
          cases e' with
          | outOfFuel => exact absurd hrec (ih rest hrest)
          | truncatedCode => intro h; cases (Except.error.inj h)
          | malformedPadding => intro h; cases (Except.error.inj h)
          | degenerateInput => intro h; cases (Except.error.inj h)
        | ok s' => intro h; cases h

/-! Padding. -/

theorem paddingSuitableFor_shape (bits : List Bool) :
    paddingSuitableFor bits =
      true :: List.replicate (8 - bits.length % 8 - 1) false := by
  unfold paddingSuitableFor
  have h1 : bits.length - (bits.length / 8) * 8 = bits.length % 8 := by omega
  have h2 : 0 < 8 - bits.length % 8 := by omega
  simp only [h1, if_pos h2]

theorem dropWhile_replicate_false (k : Nat) (l : List Bool) :
    List.dropWhile (fun b => !b) (List.replicate k false ++ l) =
      List.dropWhile (fun b => !b) l := by
  induction k with
  | zero => simp
  | succ k ih => simp [List.replicate_succ, ih]

theorem removePadding_append (p : List Bool) (k : Nat) :
    removePadding (p ++ true :: List.replicate k false) = .ok p := by
  unfold removePadding
  have hrev : (p ++ true :: List.replicate k false).reverse =
      List.replicate k false ++ (true :: p.reverse) := by
    simp [List.reverse_append, List.reverse_cons, List.reverse_replicate,
      List.append_assoc]
  rw [hrev, dropWhile_replicate_false]
  simp [List.dropWhile]

theorem removePadding_all_false (bits : List Bool) (h : ∀ b ∈ bits, b = false) :
    removePadding bits = .error .malformedPadding := by
  unfold removePadding
  have : bits.reverse.dropWhile (fun b => !b) = [] := by
    apply List.dropWhile_eq_nil_iff.mpr
    intro x hx
    rw [h x (List.mem_reverse.mp hx)]
    rfl
  rw [this]

/-! encode as a flat map. -/

theorem encode_foldl (c : HuffmanCode) :
    ∀ (s : List Nat) (acc : List Bool),
      s.foldl (fun ret byte => ret ++ codewordFor c byte) acc =
        acc ++ s.flatMap (codewordFor c) := by
  intro s
  induction s with
  | nil => intro acc; simp
  | cons a s' ih =>
    intro acc
    simp only [List.foldl_cons, List.flatMap_cons, ih, List.append_assoc]

theorem encode_eq (c : HuffmanCode) (s : List Nat) :
    encode c s = s.flatMap (codewordFor c) ++ paddingSuitableFor (s.flatMap (codewordFor c)) := by
  unfold encode
  rw [encode_foldl]
  simp

/-! The constructed code for tables covering the alphabet. -/

theorem heap_flatMap (table : List (Nat × ℚ)) :
    ((table.map (fun p => PrefixTree.leaf p.2 p.1)).flatMap leafSymbols) =
      table.map Prod.fst := by
  induction table with
  | nil => rfl
  | cons p rest ih => simp [leafSymbols, ih]

/-- huffmanInit on a nonempty table succeeds, its code array is derived by
search_tree, and the leaf symbols of its tree permute the table keys. -/
theorem huffmanInit_spec (table : List (Nat × ℚ)) (hne : table ≠ []) :
    ∃ c, huffmanInit table = some c ∧
      c.code_array = search_tree c.tree [] (List.replicate 256 []) ∧
      (leafSymbols c.tree).Perm (table.map Prod.fst) := by
  obtain ⟨t, ht⟩ := @buildLoop_isSome (table.map (fun p => PrefixTree.leaf p.2 p.1))
    (by simpa using hne)
  refine ⟨⟨t, search_tree t [] (List.replicate 256 [])⟩, ?_, rfl, ?_⟩
  · unfold huffmanInit
    rw [ht]
  · have := buildLoop_perm ht
    rw [heap_flatMap] at this
    exact this

/-- A table whose keys are exactly the 256 byte values yields a code whose
tree has the 256 symbols as leaves without duplicates, and whose root is an
internal node. -/
theorem validCode_spec (table : List (Nat × ℚ))
    (hkeys : (table.map Prod.fst).Perm (List.range 256)) :
    ∃ c, huffmanInit table = some c ∧
      c.code_array = search_tree c.tree [] (List.replicate 256 []) ∧
      (leafSymbols c.tree).Perm (List.range 256) ∧
      (leafSymbols c.tree).Nodup ∧
      (∀ x ∈ leafSymbols c.tree, x < 256) ∧
      (∃ f l r, c.tree = PrefixTree.node f l r) := by
  have hlen : table.length = 256 := by
    have := hkeys.length_eq
    simpa using this
  have hne : table ≠ [] := by
    intro h
    rw [h] at hlen
    simp at hlen
  obtain ⟨c, hinit, hca, hperm⟩ := huffmanInit_spec table hne
  have hperm' : (leafSymbols c.tree).Perm (List.range 256) := hperm.trans hkeys
  have hnd : (leafSymbols c.tree).Nodup := hperm'.nodup_iff.mpr (List.nodup_range 256)
  have hb : ∀ x ∈ leafSymbols c.tree, x < 256 := by
    intro x hx
    exact List.mem_range.mp (hperm'.mem_iff.mp hx)
  refine ⟨c, hinit, hca, hperm', hnd, hb, ?_⟩
  cases htree : c.tree with
  | leaf f s =>
    exfalso
    have : (leafSymbols c.tree).length = 256 := by
      simpa using hperm'.length_eq
    rw [htree] at this
    simp [leafSymbols] at this
  | node f l r => exact ⟨f, l, r, rfl⟩

/-- The code array entry of a symbol with a recorded path is that path. -/
theorem codewordFor_path (c : HuffmanCode)
    (hca : c.code_array = search_tree c.tree [] (List.replicate 256 []))
    (hnd : (leafSymbols c.tree).Nodup)
    (hb : ∀ x ∈ leafSymbols c.tree, x < 256)
    {a : Nat} {p : List Bool} (hp : (a, p) ∈ paths c.tree []) :
    codewordFor c a = p := by
  have hafst : a ∈ leafSymbols c.tree := by
    rw [← paths_map_fst c.tree []]
    exact List.mem_map.mpr ⟨(a, p), hp, rfl⟩
  unfold codewordFor
  rw [hca, search_tree_eq_foldl]
  refine foldl_set_mem _ _ a p ?_ hp ?_
  · rw [paths_map_fst]
    exact hnd
  · simp only [List.length_replicate]
    exact hb a hafst

/-- Every leaf symbol has a recorded path, and the code array entry is it. -/
theorem codeword_exists (c : HuffmanCode)
    (hca : c.code_array = search_tree c.tree [] (List.replicate 256 []))
    (hnd : (leafSymbols c.tree).Nodup)
    (hb : ∀ x ∈ leafSymbols c.tree, x < 256)
    {a : Nat} (ha : a ∈ leafSymbols c.tree) :
    ∃ p, (a, p) ∈ paths c.tree [] ∧ codewordFor c a = p := by
  have : a ∈ (paths c.tree []).map Prod.fst := by
    rw [paths_map_fst]
    exact ha
  obtain ⟨e, he, hfst⟩ := List.mem_map.mp this
  obtain ⟨a', p⟩ := e
  obtain rfl : a' = a := hfst
  exact ⟨p, he, codewordFor_path c hca hnd hb he⟩

/-- Shared round-trip core: for any table whose keys are exactly the 256
byte values, the built code decodes its own encoding of any byte sequence. -/
theorem roundtrip_core (table : List (Nat × ℚ))
    (hkeys : (table.map Prod.fst).Perm (List.range 256))
    (s : List Nat) (hs : ∀ a ∈ s, a < 256) :
    ∃ c, huffmanInit table = some c ∧ decode c (encode c s) = .ok s := by
  obtain ⟨c, hinit, hca, hperm, hnd, hb, f, l, r, htree⟩ := validCode_spec table hkeys
  refine ⟨c, hinit, ?_⟩
  have hcwpaths : ∀ a ∈ s,
      (a, codewordFor c a) ∈ paths c.tree [] ∧ codewordFor c a ≠ [] := by
    intro a ha
    have hleaf : a ∈ leafSymbols c.tree :=
      hperm.mem_iff.mpr (List.mem_range.mpr (hs a ha))
    obtain ⟨p, hpmem, hcw⟩ := codeword_exists c hca hnd hb hleaf
    rw [hcw]
    refine ⟨hpmem, ?_⟩
    rw [htree] at hpmem
    exact paths_ne_nil_of_node hpmem
  rw [encode_eq c s, paddingSuitableFor_shape]
  unfold decode
  rw [removePadding_append]
  exact decodeLoop_flatMap c.tree (codewordFor c) s _ hcwpaths (le_refl _)

/-! Facts about the concrete exampleTable. -/

theorem exampleTable_keys : exampleTable.map Prod.fst = List.range 256 := by
  have h256 : (256 : Nat) = 255 + 1 := rfl
  rw [h256, List.range_succ_eq_map]
  simp [exampleTable, List.map_map, Function.comp_def]

theorem exampleTable_perm : (exampleTable.map Prod.fst).Perm (List.range 256) := by
  rw [exampleTable_keys]

theorem exampleTable_sum : (exampleTable.map Prod.snd).sum = 1 := by
  simp only [exampleTable, List.map_cons, List.map_map, List.sum_cons]
  have hz : ((List.range 255).map (Prod.snd ∘ fun i => (i + 1, (0 : ℚ)))).sum = 0 := by
    apply List.sum_eq_zero
    intro x hx
    simp only [List.mem_map, Function.comp_def] at hx
    obtain ⟨i, _, hi⟩ := hx
    exact hi.symm
  rw [hz, add_zero]

theorem exampleTable_nonneg : ∀ p ∈ exampleTable, 0 ≤ p.2 := by
  intro p hp
  rcases List.mem_cons.mp hp with rfl | hp'
  · norm_num
  · simp only [List.mem_map] at hp'
    obtain ⟨i, _, hi⟩ := hp'
    rw [← hi]

theorem exampleTable_cover : ∀ p ∈ exampleTable, p.1 ∈ ([0] : List Nat) → p.2 ≠ 0 := by
  intro p hp hmem
  rcases List.mem_cons.mp hp with rfl | hp'
  · norm_num
  · simp only [List.mem_map] at hp'
    obtain ⟨i, _, hi⟩ := hp'
    rw [← hi] at hmem
    simp at hmem

theorem exampleTable_zero1 : ((1 : Nat), (0 : ℚ)) ∈ exampleTable := by
  unfold exampleTable
  refine List.mem_cons_of_mem _ (List.mem_map.mpr ⟨0, ?_, rfl⟩)
  simp

/-! Claim theorems. -/

/-- C1: for every symbol sequence s and every valid frequency table (256
entries, non-negative weights summing to 1) that gives non-zero weight to
every symbol occurring in s, decoding the encoding of s returns s:
decode(encode(s)) == s for the HuffmanCode built from that table.  (The
proof does not even need the weight hypotheses: the construction covers all
256 symbols regardless.) -/
theorem roundtrip (table : List (Nat × ℚ)) (s : List Nat)
    (hkeys : (table.map Prod.fst).Perm (List.range 256))
    (hnn : ∀ p ∈ table, 0 ≤ p.2)
    (hsum : (table.map Prod.snd).sum = 1)
    (hcover : ∀ p ∈ table, p.1 ∈ s → p.2 ≠ 0)
    (hs : ∀ a ∈ s, a < 256) :
    ∃ c, huffmanInit table = some c ∧ decode c (encode c s) = .ok s :=
  roundtrip_core table hkeys s hs

/-- Witness for roundtrip: the concrete 256-entry exampleTable and the input
[0, 0, 0], whose only symbol has non-zero weight. -/
theorem roundtrip_witness :
    ∃ c, huffmanInit exampleTable = some c ∧
      decode c (encode c [0, 0, 0]) = .ok [0, 0, 0] :=
  roundtrip exampleTable [0, 0, 0] exampleTable_perm exampleTable_nonneg
    exampleTable_sum
    (fun p hp hm => exampleTable_cover p hp (by simpa using hm))
    (by decide)

/-- C2: the bit sequence produced by encode is the concatenation of the
codewords of the input symbols followed by one 1 bit and then zero bits; the
padding length is 8 - r when r is non-zero and 8 when r = 0, where r is the
codeword bit length mod 8; hence the output length is a positive multiple of
8 and the padding length lies in [1, 8], never 0. -/
theorem encode_spec (c : HuffmanCode) (s : List Nat) :
    (encode c s =
      s.flatMap (codewordFor c) ++
        true :: List.replicate
          ((if (s.flatMap (codewordFor c)).length % 8 = 0 then 8
            else 8 - (s.flatMap (codewordFor c)).length % 8) - 1) false) ∧
    (encode c s).length % 8 = 0 ∧
    0 < (encode c s).length ∧
    1 ≤ (if (s.flatMap (codewordFor c)).length % 8 = 0 then 8
          else 8 - (s.flatMap (codewordFor c)).length % 8) ∧
    (if (s.flatMap (codewordFor c)).length % 8 = 0 then 8
      else 8 - (s.flatMap (codewordFor c)).length % 8) ≤ 8 := by
  have hpad := paddingSuitableFor_shape (s.flatMap (codewordFor c))
  have heq := encode_eq c s
  set L := (s.flatMap (codewordFor c)).length with hL
  have hmod : L % 8 < 8 := Nat.mod_lt _ (by norm_num)
  have hif : 8 - L % 8 = if L % 8 = 0 then 8 else 8 - L % 8 := by
    split_ifs with h
    · omega
    · rfl
  have hlen : (encode c s).length = L + (8 - L % 8) := by
    rw [heq, hpad]
    simp only [List.length_append, List.length_cons, List.length_replicate]
    omega
  refine ⟨?_, ?_, ?_, ?_, ?_⟩
  · rw [heq, hpad, ← hif]
  · rw [hlen]
    omega
  · rw [hlen]
    omega
  · split_ifs <;> omega
  · split_ifs <;> omega

/-- C3 counterexample: on the input 1 followed by eight 0 bits, removePadding
strips all nine bits, so the result is not 1 to 8 bits shorter than the
input as claimed; the code never checks how many zeros it removed. -/
theorem removePadding_cex :
    removePadding (true :: List.replicate 8 false) = .ok [] ∧
    (true :: List.replicate 8 false).length - ([] : List Bool).length = 9 ∧
    ¬((true :: List.replicate 8 false).length - ([] : List Bool).length ≤ 8) :=
  ⟨by simpa using removePadding_append [] 8, by simp, by simp⟩

/-- C3 (amended): removePadding strips all trailing 0 bits and then the
single 1 bit before them, so on an input of the form p ++ [1] ++ 0^k it
returns p, which is exactly k + 1 bits shorter; the drop lies in [1, 8]
exactly when at most seven 0 bits trail (as in every encoder output), and an
input holding no 1 bit fails with MalformedPaddingError. -/
theorem removePadding_spec (bits : List Bool) :
    ((∀ b ∈ bits, b = false) → removePadding bits = .error .malformedPadding) ∧
    (∀ p k, bits = p ++ true :: List.replicate k false →
      removePadding bits = .ok p ∧
      bits.length - p.length = k + 1 ∧
      (k ≤ 7 → 1 ≤ bits.length - p.length ∧ bits.length - p.length ≤ 8)) := by
  constructor
  · exact removePadding_all_false bits
  · intro p k hdecomp
    subst hdecomp
    have hlen : (p ++ true :: List.replicate k false).length = p.length + k + 1 := by
      simp only [List.length_append, List.length_cons, List.length_replicate]
      omega
    refine ⟨removePadding_append p k, ?_, ?_⟩
    · omega
    · intro hk
      omega

/-- Witness for removePadding_spec: the all-zero input [0, 0] fails with
MalformedPaddingError, and [0, 1] ++ [1] ++ [0] is stripped back to [0, 1],
two bits shorter. -/
theorem removePadding_spec_witness :
    removePadding [false, false] = .error .malformedPadding ∧
    (removePadding [false, true, true, false] = .ok [false, true] ∧
      ([false, true, true, false] : List Bool).length -
        ([false, true] : List Bool).length = 1 + 1 ∧
      ((1 : Nat) ≤ 7 →
        1 ≤ ([false, true, true, false] : List Bool).length -
            ([false, true] : List Bool).length ∧
          ([false, true, true, false] : List Bool).length -
            ([false, true] : List Bool).length ≤ 8)) :=
  ⟨(removePadding_spec [false, false]).1 (by decide),
    (removePadding_spec [false, true, true, false]).2 [false, true] 1 (by decide)⟩

/-- C4 counterexample: in exampleTable the symbol 1 has trained weight zero,
yet encode on the sequence [1] does not fail with any error: it produces
output, and that output even decodes back to [1]. -/
theorem zero_weight_cex :
    ((1 : Nat), (0 : ℚ)) ∈ exampleTable ∧
    ∃ c, huffmanInit exampleTable = some c ∧ decode c (encode c [1]) = .ok [1] :=
  ⟨exampleTable_zero1,
    roundtrip_core exampleTable exampleTable_perm [1] (by decide)⟩

/-- C4 (amended): a symbol whose trained weight is zero is still seeded as a
leaf of the tree and receives a codeword, so encode on a sequence containing
it succeeds and produces output that decodes back; the code raises no
UnknownSymbolError (no such error exists in it). -/
theorem encode_zero_weight (table : List (Nat × ℚ)) (s : List Nat) (a : Nat)
    (hkeys : (table.map Prod.fst).Perm (List.range 256))
    (hz : (a, (0 : ℚ)) ∈ table) (hmem : a ∈ s) (hs : ∀ b ∈ s, b < 256) :
    ∃ c, huffmanInit table = some c ∧ decode c (encode c s) = .ok s :=
  roundtrip_core table hkeys s hs

/-- Witness for encode_zero_weight: exampleTable gives symbol 1 weight zero
and [1, 0] contains it. -/
theorem encode_zero_weight_witness :
    ∃ c, huffmanInit exampleTable = some c ∧
      decode c (encode c [1, 0]) = .ok [1, 0] :=
  encode_zero_weight exampleTable [1, 0] 1 exampleTable_perm exampleTable_zero1
    (by decide) (by decide)

theorem foldl_add_snd (occ : List (Nat × Nat)) :
    ∀ (a : Nat), occ.foldl (fun t o => t + o.2) a = a + (occ.map Prod.snd).sum := by
  induction occ with
  | nil => intro a; simp
  | cons o rest ih =>
    intro a
    simp [List.foldl_cons, ih, add_assoc]

theorem sum_map_div (l : List ℚ) (T : ℚ) :
    (l.map (fun x => x / T)).sum = l.sum / T := by
  induction l with
  | nil => simp
  | cons x rest ih => simp [List.sum_cons, ih, add_div]

/-- C6: normalizing an occurrence table whose counts are all zero (total
zero) fails with DegenerateInputError and produces no frequency table; a
positive total yields a frequency table over the same keys with non-negative
weights summing to 1. -/
theorem occurrences2frequencies_spec (occurrences : List (Nat × Nat)) :
    ((occurrences.map Prod.snd).sum = 0 →
      occurrences2frequencies occurrences = .error .degenerateInput) ∧
    (0 < (occurrences.map Prod.snd).sum →
      ∃ freq, occurrences2frequencies occurrences = .ok freq ∧
        freq.map Prod.fst = occurrences.map Prod.fst ∧
        (∀ q ∈ freq.map Prod.snd, 0 ≤ q) ∧
        (freq.map Prod.snd).sum = 1) := by
  constructor
  · intro h0
    simp only [occurrences2frequencies]
    rw [foldl_add_snd, zero_add, h0]
    simp
  · intro hpos
    simp only [occurrences2frequencies]
    rw [foldl_add_snd, zero_add]
    rw [if_neg (by omega)]
    refine ⟨_, rfl, ?_, ?_, ?_⟩
    · simp [List.map_map, Function.comp_def]
    · intro q hq
      simp only [List.map_map, List.mem_map, Function.comp_def] at hq
      obtain ⟨o, _, hoq⟩ := hq
      rw [← hoq]
      exact div_nonneg (Nat.cast_nonneg _) (Nat.cast_nonneg _)
    · have hmaps : ((occurrences.map
          (fun o => (o.1, (o.2 : ℚ) / ((occurrences.map Prod.snd).sum : ℚ)))).map
            Prod.snd) =
          (occurrences.map (fun o => ((o.2 : Nat) : ℚ))).map
            (fun x => x / ((occurrences.map Prod.snd).sum : ℚ)) := by
        simp [List.map_map, Function.comp_def]
      rw [hmaps, sum_map_div]
      have hcast : (occurrences.map (fun o => ((o.2 : Nat) : ℚ))).sum =
          (((occurrences.map Prod.snd).sum : Nat) : ℚ) := by
        rw [Nat.cast_list_sum, List.map_map]
        rfl
      rw [hcast]
      exact div_self (by
        have : (0 : ℚ) < (((occurrences.map Prod.snd).sum : Nat) : ℚ) := by
          exact_mod_cast hpos
        exact ne_of_gt this)

/-- Witness for occurrences2frequencies_spec: the all-zero table
[(0,0),(1,0)] is rejected, and [(0,2),(1,0)] is normalized. -/
theorem occurrences2frequencies_witness :
    occurrences2frequencies [(0, 0), (1, 0)] = .error .degenerateInput ∧
    ∃ freq, occurrences2frequencies [(0, 2), (1, 0)] = .ok freq ∧
      freq.map Prod.fst = ([(0, 2), (1, 0)] : List (Nat × Nat)).map Prod.fst ∧
      (∀ q ∈ freq.map Prod.snd, 0 ≤ q) ∧
      (freq.map Prod.snd).sum = 1 :=
  ⟨(occurrences2frequencies_spec [(0, 0), (1, 0)]).1 (by decide),
    (occurrences2frequencies_spec [(0, 2), (1, 0)]).2 (by decide)⟩

/-- C5: for every padded bit sequence whose payload after padding removal
ends part-way through a codeword (no decomposition into complete codewords
exists, so the traversal runs out of bits away from a leaf), decode fails
with TruncatedCodeError; and decode succeeds exactly when the payload is a
concatenation of codewords, i.e. when the repeated root-to-leaf traversal
ends back at the root with no bits remaining. -/
theorem decode_truncation (table : List (Nat × ℚ))
    (hkeys : (table.map Prod.fst).Perm (List.range 256))
    (bits p : List Bool) (hrp : removePadding bits = .ok p) :
    ∃ c, huffmanInit table = some c ∧
      ((∃ s, decode c bits = .ok s) ↔
        ∃ s : List Nat, (∀ a ∈ s, a < 256) ∧ p = s.flatMap (codewordFor c)) ∧
      ((¬ ∃ s : List Nat, (∀ a ∈ s, a < 256) ∧ p = s.flatMap (codewordFor c)) →
        decode c bits = .error .truncatedCode) := by
  obtain ⟨c, hinit, hca, hperm, hnd, hb, f, l, r, htree⟩ := validCode_spec table hkeys
  have hdec : decode c bits = decodeLoop c.tree p.length p := by
    unfold decode
    rw [hrp]
  have hcwall : ∀ a : Nat, a < 256 →
      (a, codewordFor c a) ∈ paths c.tree [] ∧ codewordFor c a ≠ [] := by
    intro a ha
    have hleaf : a ∈ leafSymbols c.tree := hperm.mem_iff.mpr (List.mem_range.mpr ha)
    obtain ⟨q, hq, hcwq⟩ := codeword_exists c hca hnd hb hleaf
    rw [hcwq]
    refine ⟨hq, ?_⟩
    rw [htree] at hq
    exact paths_ne_nil_of_node hq
  have hfwd : ∀ s, decode c bits = .ok s →
      (∀ a ∈ s, a < 256) ∧ p = s.flatMap (codewordFor c) := by
    intro s hok
    rw [hdec] at hok
    obtain ⟨hbits, hall⟩ := decodeLoop_ok c hca hnd hb p.length p s hok
    exact ⟨fun a ha => hb a (hall a ha), hbits⟩
  have hbwd : ∀ s, (∀ a ∈ s, a < 256) → p = s.flatMap (codewordFor c) →
      decode c bits = .ok s := by
    intro s hsb hp
    rw [hdec, hp]
    exact decodeLoop_flatMap c.tree (codewordFor c) s _
      (fun a ha => hcwall a (hsb a ha)) (le_refl _)
  refine ⟨c, hinit, ?_, ?_⟩
  · constructor
    · rintro ⟨s, hs⟩
      exact ⟨s, (hfwd s hs).1, (hfwd s hs).2⟩
    · rintro ⟨s, hsb, hp⟩
      exact ⟨s, hbwd s hsb hp⟩
  · intro hnone
    cases hres : decode c bits with
    | error e =>
      rw [hdec] at hres
      rcases decodeLoop_error c.tree p.length p e hres with rfl | rfl
      · rfl
      · exfalso
        rw [htree] at hres
        exact decodeLoop_no_fuel p.length p (le_refl _) hres
    | ok s => exact absurd ⟨s, (hfwd s hres).1, (hfwd s hres).2⟩ hnone

/-- Witness for decode_truncation at exampleTable and the concrete padded
byte 11000000, whose payload after padding removal is the single bit 1. -/
theorem decode_truncation_witness :
    ∃ c, huffmanInit exampleTable = some c ∧
      ((∃ s, decode c [true, true, false, false, false, false, false, false] = .ok s) ↔
        ∃ s : List Nat, (∀ a ∈ s, a < 256) ∧ [true] = s.flatMap (codewordFor c)) ∧
      ((¬ ∃ s : List Nat, (∀ a ∈ s, a < 256) ∧ [true] = s.flatMap (codewordFor c)) →
        decode c [true, true, false, false, false, false, false, false] =
          .error .truncatedCode) :=
  decode_truncation exampleTable exampleTable_perm
    [true, true, false, false, false, false, false, false] [true] (by rfl)

/-- C7: in any heap state (so at every merge of the construction, internal
nodes included, not only leaves), the first-popped tree compares no greater
than every remaining tree under __lt__; the merge makes the first-popped
tree the left child; when the two popped trees have equal weight the first
one holds the numerically smaller symbol among its leaves; and the tie-break
key find_smallest 1000 of every tree is the minimum symbol over all its
leaves. -/
theorem tie_break_merge (heap : List PrefixTree)
    (hlen : 2 ≤ heap.length)
    (hb : ∀ t ∈ heap, ∀ s ∈ leafSymbols t, s < 1000)
    (hd : heap.Pairwise (fun a b => a.key = b.key → minSymbol a ≠ minSymbol b)) :
    ∃ t1 r1 t2 r2,
      popMin heap = some (t1, r1) ∧ popMin r1 = some (t2, r2) ∧
      (∀ x ∈ r1, PrefixTree.lt x t1 = false) ∧
      PrefixTree.fromTwoTrees t1 t2 = PrefixTree.node (t1.key + t2.key) t1 t2 ∧
      (t1.key = t2.key → PrefixTree.lt t1 t2 = true ∧ minSymbol t1 < minSymbol t2) ∧
      (∀ t ∈ heap, t.find_smallest 1000 ∈ leafSymbols t ∧
        ∀ s ∈ leafSymbols t, t.find_smallest 1000 ≤ s) := by
  have hfs : ∀ t ∈ heap, t.find_smallest 1000 = minSymbol t := by
    intro t ht
    rw [find_smallest_eq_min]
    have : minSymbol t < 1000 := hb t ht (minSymbol t) (minSymbol_mem t)
    omega
  have hcmp : cmpOK heap := by
    intro a ha b hb'
    by_cases hk : a.key = b.key
    · by_cases hm : minSymbol a = minSymbol b
      · right; right
        rw [hfs a ha, hfs b hb', hm]
        exact ⟨hk, rfl⟩
      · rcases Nat.lt_trichotomy (minSymbol a) (minSymbol b) with hlt | heq | hgt
        · left
          refine lt_iff.mpr (Or.inr ⟨hk, ?_⟩)
          rw [hfs a ha, hfs b hb']
          exact hlt
        · exact absurd heq hm
        · right; left
          refine lt_iff.mpr (Or.inr ⟨hk.symm, ?_⟩)
          rw [hfs a ha, hfs b hb']
          exact hgt
    · rcases lt_trichotomy a.key b.key with hlt | heq | hgt
      · exact Or.inl (lt_iff.mpr (Or.inl hlt))
      · exact absurd heq hk
      · exact Or.inr (Or.inl (lt_iff.mpr (Or.inl hgt)))
  cases hp1 : popMin heap with
  | none =>
    exfalso
    rw [popMin_none.mp hp1] at hlen
    simp at hlen
  | some p1 =>
    obtain ⟨t1, r1⟩ := p1
    cases hp2 : popMin r1 with
    | none =>
      exfalso
      have h1 := popMin_length hp1
      rw [popMin_none.mp hp2] at h1
      simp at h1
      omega
    | some p2 =>
      obtain ⟨t2, r2⟩ := p2
      have hmin := popMin_min hcmp hp1
      have ht1heap : t1 ∈ heap := (popMin_perm hp1).mem_iff.mpr (List.mem_cons_self t1 r1)
      have ht2r1 : t2 ∈ r1 := (popMin_perm hp2).mem_iff.mpr (List.mem_cons_self t2 r2)
      have ht2heap : t2 ∈ heap :=
        (popMin_perm hp1).mem_iff.mpr (List.mem_cons_of_mem t1 ht2r1)
      refine ⟨t1, r1, t2, r2, rfl, hp2, hmin, rfl, ?_, ?_⟩
      · intro hk12
        have hdperm : (t1 :: t2 :: r2).Pairwise
            (fun a b => a.key = b.key → minSymbol a ≠ minSymbol b) :=
          ((List.Perm.pairwise_iff (fun h hk => (h hk.symm).symm)
            ((popMin_perm hp1).trans ((popMin_perm hp2).cons t1))).mp hd)
        have hne : minSymbol t1 ≠ minSymbol t2 :=
          (List.pairwise_cons.mp hdperm).1 t2 (List.mem_cons_self t2 r2) hk12
        have hnotlt : PrefixTree.lt t2 t1 = false := hmin t2 ht2r1
        have hle : minSymbol t1 ≤ minSymbol t2 := by
          by_contra hgt
          push_neg at hgt
          have : PrefixTree.lt t2 t1 = true := by
            refine lt_iff.mpr (Or.inr ⟨hk12.symm, ?_⟩)
            rw [hfs t1 ht1heap, hfs t2 ht2heap]
            exact hgt
          rw [this] at hnotlt
          cases hnotlt
        have hstrict : minSymbol t1 < minSymbol t2 := lt_of_le_of_ne hle hne
        refine ⟨?_, hstrict⟩
        refine lt_iff.mpr (Or.inr ⟨hk12, ?_⟩)
        rw [hfs t1 ht1heap, hfs t2 ht2heap]
        exact hstrict
      · intro t ht
        rw [hfs t ht]
        exact ⟨minSymbol_mem t, minSymbol_le t⟩

/-- Witness for tie_break_merge: two equal-weight leaves holding symbols 5
and 3. -/
theorem tie_break_merge_witness :
    ∃ t1 r1 t2 r2,
      popMin [PrefixTree.leaf 1 5, PrefixTree.leaf 1 3] = some (t1, r1) ∧
      popMin r1 = some (t2, r2) ∧
      (∀ x ∈ r1, PrefixTree.lt x t1 = false) ∧
      PrefixTree.fromTwoTrees t1 t2 = PrefixTree.node (t1.key + t2.key) t1 t2 ∧
      (t1.key = t2.key → PrefixTree.lt t1 t2 = true ∧ minSymbol t1 < minSymbol t2) ∧
      (∀ t ∈ [PrefixTree.leaf 1 5, PrefixTree.leaf 1 3],
        t.find_smallest 1000 ∈ leafSymbols t ∧
          ∀ s ∈ leafSymbols t, t.find_smallest 1000 ≤ s) := by
  apply tie_break_merge
  · simp
  · intro t ht s hs
    rcases List.mem_cons.mp ht with rfl | ht'
    · simp [leafSymbols] at hs
      omega
    · rcases List.mem_cons.mp ht' with rfl | hf
      · simp [leafSymbols] at hs
        omega
      · simp at hf
  · refine List.Pairwise.cons ?_ (List.Pairwise.cons ?_ List.Pairwise.nil)
    · intro b hb'
      rcases List.mem_cons.mp hb' with rfl | hf
      · intro _
        simp [minSymbol]
      · simp at hf
    · intro b hb'
      simp at hb'

theorem set_replicate_nil :
    ∀ (n i : Nat), (List.replicate n ([] : List Bool)).set i [] = List.replicate n [] := by
  intro n
  induction n with
  | zero => intro i; rfl
  | succ n ih =>
    intro i
    cases i with
    | zero => simp [List.replicate_succ]
    | succ i => simp [List.replicate_succ, ih]

theorem getD_replicate_nil :
    ∀ (n i : Nat), (List.replicate n ([] : List Bool)).getD i [] = [] := by
  intro n
  induction n with
  | zero => intro i; rfl
  | succ n ih =>
    intro i
    cases i with
    | zero => simp [List.replicate_succ]
    | succ i => simp [List.replicate_succ, ih]

/-- Core computation for the single-entry table: the tree is one leaf, the
codeword of the symbol is empty, encode of three copies of the symbol is the
single padding byte, and decode of that output returns the empty list. -/
theorem single_symbol_core (x : Nat) (w : ℚ) :
    ∃ c, huffmanInit [(x, w)] = some c ∧
      c.tree = PrefixTree.leaf w x ∧
      c.tree.isSingleton = true ∧
      codewordFor c x = [] ∧
      encode c [x, x, x] = true :: List.replicate 7 false ∧
      decode c (encode c [x, x, x]) = .ok [] := by
  refine ⟨⟨PrefixTree.leaf w x,
    search_tree (PrefixTree.leaf w x) [] (List.replicate 256 [])⟩, rfl, rfl, rfl, ?_⟩
  have hcw : codewordFor
      ⟨PrefixTree.leaf w x, search_tree (PrefixTree.leaf w x) [] (List.replicate 256 [])⟩
      x = [] := by
    show ((List.replicate 256 ([] : List Bool)).set x []).getD x [] = []
    rw [set_replicate_nil]
    exact getD_replicate_nil 256 x
  have henc : encode
      ⟨PrefixTree.leaf w x, search_tree (PrefixTree.leaf w x) [] (List.replicate 256 [])⟩
      [x, x, x] = true :: List.replicate 7 false := by
    rw [encode_eq]
    have hflat : ([x, x, x] : List Nat).flatMap (codewordFor
        ⟨PrefixTree.leaf w x,
          search_tree (PrefixTree.leaf w x) [] (List.replicate 256 [])⟩) = [] := by
      simp only [List.flatMap_cons, List.flatMap_nil, hcw, List.append_nil]
    rw [hflat, paddingSuitableFor_shape]
    rfl
  refine ⟨hcw, henc, ?_⟩
  rw [henc]
  unfold decode
  have hrp : removePadding (true :: List.replicate 7 false) = .ok [] := by
    simpa using removePadding_append [] 7
  rw [hrp]
  dsimp only
  exact decodeLoop_nil _ _

/-- C8 (amended): a single-entry table collapses the tree to one leaf, that
symbol receives the empty codeword, encoding three copies of the symbol
yields exactly the padding byte 10000000, and decoding that output
terminates — but returns the empty sequence, not the three symbols: the
empty codewords carry no information, so decode cannot recover them. -/
theorem single_symbol (x : Nat) (w : ℚ) :
    ∃ c, huffmanInit [(x, w)] = some c ∧
      c.tree = PrefixTree.leaf w x ∧
      c.tree.isSingleton = true ∧
      codewordFor c x = [] ∧
      encode c [x, x, x] = true :: List.replicate 7 false ∧
      decode c (encode c [x, x, x]) = .ok [] :=
  single_symbol_core x w

/-- C8 counterexample: for the single-entry table on symbol 88, encode of
[88, 88, 88] is exactly the padding byte 10000000, but decode of that output
returns the empty sequence, not [88, 88, 88] as the claim states. -/
theorem single_symbol_cex :
    (huffmanInit [(88, (1 : ℚ))]).map
        (fun c => encode c [88, 88, 88]) = some (true :: List.replicate 7 false) ∧
    (huffmanInit [(88, (1 : ℚ))]).map
        (fun c => decode c (encode c [88, 88, 88])) = some (.ok []) ∧
    (Except.ok ([] : List Nat) : Except HuffError (List Nat)) ≠ .ok [88, 88, 88] := by
  obtain ⟨c, hinit, _, _, hcw, henc, hdec⟩ := single_symbol_core 88 1
  refine ⟨?_, ?_, by simp⟩
  · rw [hinit, Option.map_some']
    rw [henc]
  · rw [hinit, Option.map_some']
    rw [hdec]

/-- Two recorded paths of distinct symbols never extend one another. -/
theorem paths_no_ext :
    ∀ (t : PrefixTree) (acc : List Bool) (a b : Nat) (pa pb ext : List Bool),
      (a, pa) ∈ paths t acc → (b, pb) ∈ paths t acc → a ≠ b →
      pa ++ ext = pb → False := by
  intro t
  induction t with
  | leaf f s =>
    intro acc a b pa pb ext ha hb hab _
    simp only [paths, List.mem_singleton, Prod.mk.injEq] at ha hb
    exact hab (ha.1.trans hb.1.symm)
  | node f l r ihl ihr =>
    intro acc a b pa pb ext ha hb hab heq
    simp only [paths, List.mem_append] at ha hb
    rcases ha with ha | ha <;> rcases hb with hb | hb
    · exact ihl _ _ _ _ _ _ ha hb hab heq
    · obtain ⟨sa, hsa, _⟩ := paths_spec l (acc ++ [false]) a pa ha
      obtain ⟨sb, hsb, _⟩ := paths_spec r (acc ++ [true]) b pb hb
      rw [hsa, hsb] at heq
      simp only [List.append_assoc] at heq
      have := List.append_cancel_left heq
      simp at this
    · obtain ⟨sa, hsa, _⟩ := paths_spec r (acc ++ [true]) a pa ha
      obtain ⟨sb, hsb, _⟩ := paths_spec l (acc ++ [false]) b pb hb
      rw [hsa, hsb] at heq
      simp only [List.append_assoc] at heq
      have := List.append_cancel_left heq
      simp at this
    · exact ihr _ _ _ _ _ _ ha hb hab heq

/-- C9: for every valid frequency table (with its at least two — in fact
256 — symbols), the derived codeword table is prefix-free: for distinct
symbols a and b, the codeword of a is not an initial segment of the codeword
of b (stated as: no extension of the one equals the other). -/
theorem codewords_not_nested (table : List (Nat × ℚ)) (a b : Nat)
    (hkeys : (table.map Prod.fst).Perm (List.range 256))
    (ha : a < 256) (hb : b < 256) (hab : a ≠ b) :
    ∃ c, huffmanInit table = some c ∧
      ¬ ∃ ext, codewordFor c a ++ ext = codewordFor c b := by
  obtain ⟨c, hinit, hca, hperm, hnd, hbound, _⟩ := validCode_spec table hkeys
  refine ⟨c, hinit, ?_⟩
  rintro ⟨ext, hext⟩
  have hal : a ∈ leafSymbols c.tree := hperm.mem_iff.mpr (List.mem_range.mpr ha)
  have hbl : b ∈ leafSymbols c.tree := hperm.mem_iff.mpr (List.mem_range.mpr hb)
  obtain ⟨pa, hpa, hcwa⟩ := codeword_exists c hca hnd hbound hal
  obtain ⟨pb, hpb, hcwb⟩ := codeword_exists c hca hnd hbound hbl
  rw [hcwa, hcwb] at hext
  exact paths_no_ext c.tree [] a b pa pb ext hpa hpb hab hext

/-- Witness for codewords_not_nested at exampleTable and the symbols 0, 1. -/
theorem codewords_not_nested_witness :
    ∃ c, huffmanInit exampleTable = some c ∧
      ¬ ∃ ext, codewordFor c 0 ++ ext = codewordFor c 1 :=
  codewords_not_nested exampleTable 0 1 exampleTable_perm (by decide) (by decide)
    (by decide)

/-- C10: after construction from any 256-entry frequency table, every one of
the 256 symbols — zero-weight ones included — is a leaf of the tree and owns
a recorded codeword stored in the code array, so no symbol lookup during
encode can miss. -/
theorem all_symbols_coded (table : List (Nat × ℚ)) (a : Nat)
    (hkeys : (table.map Prod.fst).Perm (List.range 256)) (ha : a < 256) :
    ∃ c, huffmanInit table = some c ∧ a ∈ leafSymbols c.tree ∧
      ∃ p, (a, p) ∈ paths c.tree [] ∧ codewordFor c a = p := by
  obtain ⟨c, hinit, hca, hperm, hnd, hbound, _⟩ := validCode_spec table hkeys
  have hal : a ∈ leafSymbols c.tree := hperm.mem_iff.mpr (List.mem_range.mpr ha)
  exact ⟨c, hinit, hal, codeword_exists c hca hnd hbound hal⟩

/-- Witness for all_symbols_coded at exampleTable and the (zero-weight)
symbol 7. -/
theorem all_symbols_coded_witness :
    ∃ c, huffmanInit exampleTable = some c ∧ (7 : Nat) ∈ leafSymbols c.tree ∧
      ∃ p, ((7 : Nat), p) ∈ paths c.tree [] ∧ codewordFor c 7 = p :=
  all_symbols_coded exampleTable 7 exampleTable_perm (by decide)

end Huffman
